import Mathlib

/-!
Verification of the FLAC metadata-block engine (`src/tag.rs` of rust-metaflac).

The Rust source owns an ordered sequence of metadata blocks plus an optional
originating path.  `tag.rs` is the authority for every tag-level operation;
the block data type itself lives in `block.rs`, which is not part of the
sources, so its shape is modelled from the specification (§3 of the spec).
Rust's mutating methods (`&mut self`) are embedded as pure state-passing
functions `FlacTag → FlacTag`.
-/

set_option maxRecDepth 4000
set_option linter.unnecessarySeqFocus false

/-- Modelled from the spec: the Vorbis-comment block of `block.rs` (absent from
`src/`): a vendor string plus a key → ordered-value-list multimap.  The Rust
`HashMap<String, Vec<String>>` is modelled as an association list whose keys
are unique by construction; all observations in `tag.rs` go through keyed
lookup (`get`/`get_mut`/`insert`/`remove`), which the association-list
operations below reproduce. -/
structure VorbisComment where
  vendor_string : String
  comments : List (String × List String)
deriving DecidableEq

/-- Modelled from the spec: `VorbisComment::new()` of `block.rs` — an empty
comment map (the vendor string plays no role in any claim). -/
def VorbisComment.new : VorbisComment :=
  { vendor_string := "", comments := [] }

/-- Modelled from the spec: the picture block payload of `block.rs` (absent
from `src/`): category code, mime string, description, dimensions, colour
data and raw image bytes (§3 of the spec).  The picture-category enum is
modelled by its numeric code. -/
structure Picture where
  picture_type : Nat
  mime_type : String
  description : String
  width : Nat
  height : Nat
  depth : Nat
  num_colors : Nat
  data : List Nat
deriving DecidableEq

/-- Modelled from the spec: the block tagged union of `block.rs` (absent from
`src/`), following the variant table of §3 of the spec.  Opaque payloads are
byte lists; `unknown` keeps the original 7-bit type code. -/
inductive Block where
  | streamInfo (payload : List Nat)
  | padding (size : Nat)
  | application (id : List Nat) (data : List Nat)
  | seekTable (data : List Nat)
  | vorbisComment (vc : VorbisComment)
  | cueSheet (data : List Nat)
  | picture (p : Picture)
  | unknown (code : Nat) (data : List Nat)
deriving DecidableEq

/-- Modelled from the spec: `Block::block_type()` of `block.rs` — the FLAC
type code of each variant (StreamInfo 0, Padding 1, Application 2, SeekTable
3, VorbisComment 4, CueSheet 5, Picture 6, per the §3 variant table); an
unknown block reports its stored original code. -/
def Block.block_type : Block → Nat
  | .streamInfo _ => 0
  | .padding _ => 1
  | .application _ _ => 2
  | .seekTable _ => 3
  | .vorbisComment _ => 4
  | .cueSheet _ => 5
  | .picture _ => 6
  | .unknown code _ => code

/-- Is this block the `padding` variant? -/
def Block.isPadding : Block → Bool
  | .padding _ => true
  | _ => false

/-- Is this block the `streamInfo` variant? -/
def Block.isStreamInfo : Block → Bool
  | .streamInfo _ => true
  | _ => false

/-- Is this block the `vorbisComment` variant? -/
def Block.isVorbisComment : Block → Bool
  | .vorbisComment _ => true
  | _ => false

/-- The size of a padding block, `none` for every other variant. -/
def Block.paddingSize : Block → Option Nat
  | .padding n => some n
  | _ => none

/-- `FlacTag` of `tag.rs`: the originating path (modelled as a string) and the
ordered block sequence. -/
structure FlacTag where
  path : Option String
  blocks : List Block
deriving DecidableEq

/-- `FlacTag::new()`: no path, no blocks. -/
def FlacTag.new : FlacTag :=
  { path := none, blocks := [] }

/-- `FlacTag::add_block`: pushes a block at the end of the sequence. -/
def FlacTag.add_block (t : FlacTag) (b : Block) : FlacTag :=
  { t with blocks := t.blocks ++ [b] }

/-- `FlacTag::blocks_with_type`: the blocks whose type code matches. -/
def FlacTag.blocks_with_type (t : FlacTag) (code : Nat) : List Block :=
  t.blocks.filter (fun b => b.block_type == code)

/-- `FlacTag::remove_blocks_with_type`: `retain` of the blocks whose type code
differs. -/
def FlacTag.remove_blocks_with_type (t : FlacTag) (code : Nat) : FlacTag :=
  { t with blocks := t.blocks.filter (fun b => b.block_type != code) }

/-- The summation loop of `FlacTag::aggregate_padding`: fold over the blocks
adding the size of every `padding` block. -/
def totalPadding (bs : List Block) : Nat :=
  bs.foldl (fun acc b => match b with | .padding size => acc + size | _ => acc) 0

/-- `FlacTag::aggregate_padding`: sum the sizes of all padding blocks, remove
every block whose type code is `BlockType::Padding as u8` (= 1), then append
one padding block holding the total. -/
def FlacTag.aggregate_padding (t : FlacTag) : FlacTag :=
  (t.remove_blocks_with_type 1).add_block (.padding (totalPadding t.blocks))

/-- Concrete tag for claim C1: an unknown block manually tagged with the
Padding type code (as the doc example of `add_block` does with code 20),
followed by a genuine padding block. -/
def tagC1 : FlacTag :=
  { path := none, blocks := [Block.unknown 1 [], Block.padding 10] }

/-- Keyed lookup in the comment map (the `HashMap::get` observation): the
value list of the first entry carrying the key. -/
def commentsGet (m : List (String × List String)) (k : String) :
    Option (List String) :=
  match m with
  | [] => none
  | (k', vs) :: rest => if k' = k then some vs else commentsGet rest k

/-- Keyed insertion in the comment map (the `HashMap::insert` mutation):
replace the value list of the entry carrying the key, appending a fresh
entry when the key is absent. -/
def commentsInsert (m : List (String × List String)) (k : String)
    (vs : List String) : List (String × List String) :=
  match m with
  | [] => [(k, vs)]
  | (k', vs') :: rest =>
    if k' = k then (k, vs) :: rest else (k', vs') :: commentsInsert rest k vs

/-- Keyed removal in the comment map (the `HashMap::remove` mutation): drop
the entries carrying the key. -/
def commentsRemove (m : List (String × List String)) (k : String) :
    List (String × List String) :=
  m.filter (fun p => p.1 != k)

/-- In-place update of the value list under a key (the `HashMap::get_mut`
observation followed by a mutation of the value list); a no-op when the key
is absent. -/
def commentsUpdate (m : List (String × List String)) (k : String)
    (f : List String → List String) : List (String × List String) :=
  match m with
  | [] => []
  | (k', vs) :: rest =>
    if k' = k then (k', f vs) :: rest else (k', vs) :: commentsUpdate rest k f

/-- The Vorbis-comment payloads of a block sequence, in block order. -/
def vorbisOf (bs : List Block) : List VorbisComment :=
  bs.filterMap fun b =>
    match b with
    | .vorbisComment v => some v
    | _ => none

/-- `FlacTag::vorbis_comments`: references to every Vorbis-comment block, in
block order. -/
def FlacTag.vorbis_comments (t : FlacTag) : List VorbisComment :=
  vorbisOf t.blocks

/-- Does the tag contain at least one Vorbis-comment block? -/
def FlacTag.has_vorbis (t : FlacTag) : Bool :=
  t.blocks.any Block.isVorbisComment

/-- The creating side effect of `FlacTag::vorbis_comments_mut`: when no
Vorbis-comment block exists, push a fresh empty one at the end of the block
sequence. -/
def FlacTag.vorbis_ensure (t : FlacTag) : FlacTag :=
  if t.has_vorbis then t else t.add_block (.vorbisComment VorbisComment.new)

/-- Apply `f` to the first Vorbis-comment block of the sequence (the mutation
performed through `vorbis_comments_mut()[0]`). -/
def updateFirstVorbis (f : VorbisComment → VorbisComment) :
    List Block → List Block
  | [] => []
  | .vorbisComment v :: rest => .vorbisComment (f v) :: rest
  | b :: rest => b :: updateFirstVorbis f rest

/-- Apply `f` to every Vorbis-comment block of the sequence (the mutation
performed by iterating over `vorbis_comments_mut()`). -/
def mapVorbis (f : VorbisComment → VorbisComment) (bs : List Block) :
    List Block :=
  bs.map fun b =>
    match b with
    | .vorbisComment v => .vorbisComment (f v)
    | b => b

/-- One step of the accumulation loop of `FlacTag::get_vorbis_key`: append
(`push_all`) the value list stored under the key in this comment block, if
any. -/
def collectStep (k : String) (acc : List String) (v : VorbisComment) :
    List String :=
  match commentsGet v.comments k with
  | some list => acc ++ list
  | none => acc

/-- The accumulation loop of `FlacTag::get_vorbis_key`: walk the comment
blocks in block order, collecting the values stored under the key. -/
def FlacTag.vorbis_values (t : FlacTag) (k : String) : List String :=
  t.vorbis_comments.foldl (collectStep k) []

/-- `FlacTag::get_vorbis_key`: the collected values joined with `", "`
(`connect`), or `None` when nothing was collected. -/
def FlacTag.get_vorbis_key (t : FlacTag) (k : String) : Option String :=
  let all := t.vorbis_values k
  if 0 < all.length then some (String.intercalate ", " all) else none

/-- `FlacTag::set_vorbis_key`: insert the value list for the key into the
first mutable comment block (creating one when none exists). -/
def FlacTag.set_vorbis_key (t : FlacTag) (k : String) (vs : List String) :
    FlacTag :=
  let t' := t.vorbis_ensure
  { t' with
    blocks := updateFirstVorbis
      (fun v => { v with comments := commentsInsert v.comments k vs })
      t'.blocks }

/-- `FlacTag::remove_vorbis_key`: remove the key from every mutable comment
block (the `vorbis_comments_mut` call creates one when none exists). -/
def FlacTag.remove_vorbis_key (t : FlacTag) (k : String) : FlacTag :=
  let t' := t.vorbis_ensure
  { t' with
    blocks := mapVorbis
      (fun v => { v with comments := commentsRemove v.comments k })
      t'.blocks }

/-- `FlacTag::remove_vorbis_key_value`: in every mutable comment block,
`retain` only the values under the key that differ from the given value
(a no-op in blocks where the key is absent). -/
def FlacTag.remove_vorbis_key_value (t : FlacTag) (k : String) (val : String) :
    FlacTag :=
  let t' := t.vorbis_ensure
  { t' with
    blocks := mapVorbis
      (fun v =>
        { v with
          comments := commentsUpdate v.comments k
            (fun list => list.filter (fun s => s != val)) })
      t'.blocks }

/-- Modelled from external std: `str::parse::<u32>()` — accepts a decimal
digit string whose value fits an unsigned 32-bit integer.  (Rust also
accepts a redundant leading `+`; no claim depends on the parser accepting
anything, only on `None` propagating through `and_then`.) -/
def parse_u32 (s : String) : Option Nat :=
  match s.toNat? with
  | some n => if n < 2 ^ 32 then some n else none
  | none => none

/-- `FlacTag::track`: the `TRACKNUMBER` comment parsed as a number. -/
def FlacTag.track (t : FlacTag) : Option Nat :=
  (t.get_vorbis_key "TRACKNUMBER").bind parse_u32

/-- `FlacTag::total_tracks`: the `TOTALTRACKS` comment parsed as a number. -/
def FlacTag.total_tracks (t : FlacTag) : Option Nat :=
  (t.get_vorbis_key "TOTALTRACKS").bind parse_u32

/-- `FlacTag::remove_track`: removes the `TRACKNUMBER` key, then the
`TOTALTRACKS` key. -/
def FlacTag.remove_track (t : FlacTag) : FlacTag :=
  (t.remove_vorbis_key "TRACKNUMBER").remove_vorbis_key "TOTALTRACKS"

/-- `FlacTag::remove_total_tracks`: removes the `TOTALTRACKS` key. -/
def FlacTag.remove_total_tracks (t : FlacTag) : FlacTag :=
  t.remove_vorbis_key "TOTALTRACKS"

/-- Outcome of `FlacTag::save`: either the contract-violation fault raised on
a tag with no recorded path, or delegation to `write_to_path` on the
recorded path (the file I/O behind it is an external collaborator and out of
scope). -/
inductive SaveAction where
  | panicked (msg : String)
  | write_to_path (path : String)
deriving DecidableEq

/-- `FlacTag::save`: panics when no path was recorded, otherwise writes back
to the recorded path. -/
def FlacTag.save (t : FlacTag) : SaveAction :=
  match t.path with
  | none => .panicked "attempted to save metadata which was not read from a file"
  | some p => .write_to_path p

/-- Concrete tag for the C4 witness: two Vorbis-comment blocks, the second
also carrying the key being set. -/
def tagW4 : FlacTag :=
  { path := none,
    blocks := [Block.vorbisComment { vendor_string := "", comments := [("key", ["a"])] },
               Block.padding 5,
               Block.vorbisComment { vendor_string := "", comments := [("key", ["b"])] }] }

/-- The `sort_value` closure of `FlacTag::write_to`: StreamInfo sorts as 1,
Padding as 3, every other block as 2. -/
def sort_value : Block → Nat
  | .streamInfo _ => 1
  | .padding _ => 3
  | _ => 2

/-- The comparator of the `sort_by` call in `FlacTag::write_to`: compare the
`sort_value` priorities. -/
def blockle (a b : Block) : Prop :=
  sort_value a ≤ sort_value b

instance : DecidableRel blockle :=
  fun a b => Nat.decLe (sort_value a) (sort_value b)

/-- The block order produced by `FlacTag::write_to`: aggregate the padding,
then stably sort the blocks by priority.  Rust's `Vec::sort_by` is a stable
sort, modelled by insertion sort, which is stable for the same
comparator. -/
def FlacTag.write_sorted (t : FlacTag) : List Block :=
  List.insertionSort blockle (t.aggregate_padding).blocks

/-- The flag computation of the write loop of `FlacTag::write_to`: block `i`
of `n` is encoded with last-block flag `i == n - 1`. -/
def mark_last (n : Nat) : Nat → List Block → List (Bool × Block)
  | _, [] => []
  | i, b :: rest => (decide (i = n - 1), b) :: mark_last n (i + 1) rest

/-- The serialized block sequence of `FlacTag::write_to`: the sorted blocks,
each paired with the last-block flag it is encoded with (the byte encoding
of a single block is `Block::write_to` of the external `block.rs`). -/
def FlacTag.write_blocks (t : FlacTag) : List (Bool × Block) :=
  mark_last t.write_sorted.length 0 t.write_sorted

/-- Concrete tag for the C2 witness: padding first, then a stream-info block,
an unknown block and more padding. -/
def tagW2 : FlacTag :=
  { path := none,
    blocks := [Block.padding 3, Block.streamInfo [], Block.unknown 20 [],
               Block.padding 4] }

/-- A seekable byte stream, as consumed by `skip_metadata`, `is_candidate`
and `read_from`: the underlying content, the current read position, and a
transport-fault oracle consumed one entry per I/O call (`true` makes that
call fail; an exhausted oracle means no further transport faults). -/
structure Reader where
  data : List Nat
  pos : Nat
  faults : List Bool
deriving DecidableEq

/-- Consume one entry of the fault oracle. -/
def Reader.popFault (r : Reader) : Bool × Reader :=
  match r.faults with
  | [] => (false, r)
  | f :: fs => (f, { r with faults := fs })

/-- Result of one I/O call: a value and the advanced reader, or a failure
(transport fault or end of stream) with the reader left in place. -/
inductive ReadResult (α : Type) where
  | ok (val : α) (r : Reader)
  | err (r : Reader)

/-- `read_exact(n)`: the next `n` bytes; fails on a transport fault or when
fewer than `n` bytes remain before the end of the stream. -/
def Reader.readExact (r : Reader) (n : Nat) : ReadResult (List Nat) :=
  let p := r.popFault
  if p.1 then .err p.2
  else if p.2.pos + n ≤ p.2.data.length then
    .ok ((p.2.data.drop p.2.pos).take n) { p.2 with pos := p.2.pos + n }
  else .err p.2

/-- `seek(k, SeekSet)`: move to the absolute position `k`. -/
def Reader.seekSet (r : Reader) (k : Nat) : ReadResult Unit :=
  let p := r.popFault
  if p.1 then .err p.2 else .ok () { p.2 with pos := k }

/-- `seek(k, SeekCur)`: advance the position by `k` (the scanner only ever
seeks forward, by a 24-bit block length). -/
def Reader.seekCur (r : Reader) (k : Nat) : ReadResult Unit :=
  let p := r.popFault
  if p.1 then .err p.2 else .ok () { p.2 with pos := p.2.pos + k }

/-- `read_to_end()`: every byte from the current position on. -/
def Reader.readToEnd (r : Reader) : ReadResult (List Nat) :=
  let p := r.popFault
  if p.1 then .err p.2
  else .ok (p.2.data.drop p.2.pos) { p.2 with pos := p.2.data.length }

/-- `read_be_u32()`: the next four bytes combined big-endian. -/
def Reader.readBeU32 (r : Reader) : ReadResult Nat :=
  match r.readExact 4 with
  | .err r' => .err r'
  | .ok bs r' => .ok (bs.foldl (fun acc b => acc * 256 + b) 0) r'

/-- The 4-byte ASCII magic `fLaC`. -/
def fLaC_magic : List Nat := [0x66, 0x4C, 0x61, 0x43]

/-- The fallback of the `try_io!` macro of `skip_metadata`: seek back to
position 0 and read the whole stream to the end, returning an empty buffer
when either recovery call itself fails. -/
def Reader.recover (r : Reader) : List Nat :=
  match r.seekSet 0 with
  | .err _ => []
  | .ok _ r1 =>
    match r1.readToEnd with
    | .err _ => []
    | .ok bs _ => bs

/-- The final `read_to_end` of `skip_metadata`, instrumented with a flag
recording whether the `try_io!` fallback fired. -/
def finishScanI (r : Reader) : List Nat × Bool :=
  match r.readToEnd with
  | .err r' => (r'.recover, true)
  | .ok bs _ => (bs, false)

/-- The header-walking loop of `skip_metadata`: read one big-endian `u32`
block header, set `more` from its high bit (the last-block flag), skip
`header & 0xFFFFFF` payload bytes, and repeat while `more`.  The fuel bounds
the iteration count, as Lean requires totality in the face of an arbitrary
oracle; `skip_metadataI` passes one unit of fuel per stream byte plus one,
more than a terminating scan can consume since every iteration advances the
position by at least the four header bytes. -/
def skipBlocksI : Nat → Reader → List Nat × Bool
  | 0, r => (r.recover, true)
  | fuel + 1, r =>
    match r.readBeU32 with
    | .err r' => (r'.recover, true)
    | .ok header r1 =>
      let length := header &&& 0xFFFFFF
      match r1.seekCur length with
      | .err r2 => (r2.recover, true)
      | .ok _ r2 =>
        if (header >>> 24) &&& 0x80 = 0 then skipBlocksI fuel r2
        else finishScanI r2

/-- `skip_metadata` of `tag.rs` (the Boundary Scanner), instrumented with a
flag recording whether any I/O failure fired the `try_io!` fallback: read
the 4-byte magic; on `fLaC` walk the block headers and return everything
after the block whose last-block flag is set; otherwise rewind to the start
and return the whole remaining stream. -/
def skip_metadataI (r : Reader) : List Nat × Bool :=
  match r.readExact 4 with
  | .err r' => (r'.recover, true)
  | .ok ident r1 =>
    if ident = fLaC_magic then skipBlocksI (r1.data.length + 1) r1
    else
      match r1.seekSet 0 with
      | .err r2 => (r2.recover, true)
      | .ok _ r2 => finishScanI r2

/-- The byte buffer returned by the Boundary Scanner. -/
def skip_metadata (r : Reader) : List Nat :=
  (skip_metadataI r).1

/-- `is_candidate` of `tag.rs`: the next four bytes equal the `fLaC` magic;
any I/O failure yields `false`. -/
def is_candidate (r : Reader) : Bool :=
  match r.readExact 4 with
  | .err _ => false
  | .ok ident _ => ident == fLaC_magic

/-- Modelled from the spec: the `audiotag` error kinds of §7 —
`InvalidInputError` raised on a bad magic is the spec's `FormatError`;
transport failures are `IOError`. -/
inductive TagError where
  | formatError (msg : String)
  | ioError (msg : String)
deriving DecidableEq

/-- The block-decoding loop of `read_from`, parametric in the external
`Block::read_from` of `block.rs` (absent from `src/`): push each decoded
block and stop once the last-block flag was set.  The fuel bounds the
iteration count as Lean requires totality for an arbitrary decoder; no
claim exercises the loop, since the bad-magic check runs before it. -/
def read_from_loop
    (blockRead : Reader → Except TagError (Bool × Block × Reader)) :
    Nat → FlacTag → Reader → Except TagError FlacTag
  | 0, _, _ => .error (.ioError "out of fuel")
  | fuel + 1, t, r =>
    match blockRead r with
    | .error e => .error e
    | .ok (lastFlag, b, r') =>
      let t' := t.add_block b
      if lastFlag then .ok t' else read_from_loop blockRead fuel t' r'

/-- `read_from` of `tag.rs`, parametric in the external block decoder: read
the 4-byte magic and fail with the invalid-input (format) error when it is
not `fLaC`, otherwise decode blocks until the last-block flag. -/
def read_from (blockRead : Reader → Except TagError (Bool × Block × Reader))
    (r : Reader) : Except TagError FlacTag :=
  match r.readExact 4 with
  | .err _ => .error (.ioError "failed to read the magic")
  | .ok ident r1 =>
    if ident = fLaC_magic then
      read_from_loop blockRead (r1.data.length + 1) FlacTag.new r1
    else .error (.formatError "reader does not contain flac metadata")

/-- A block decoder that always fails; usable by the C7 witness because the
magic check of `read_from` runs before any block decode. -/
def blockReader0 : Reader → Except TagError (Bool × Block × Reader) :=
  fun _ => .error (.ioError "unused")

/-- Concrete reader for claim C6: a well-formed `fLaC` magic followed by
three bytes, with a fault oracle that makes the second I/O call — the first
block-header read, performed at position 4 — fail. -/
def readerC6 : Reader :=
  { data := [0x66, 0x4C, 0x61, 0x43, 1, 2, 3], pos := 0,
    faults := [false, true] }

/-- Concrete reader for the C7 witness: five bytes that do not start with
the `fLaC` magic, with no transport faults. -/
def readerC7 : Reader :=
  { data := [0, 0, 0, 0, 9], pos := 0, faults := [] }

theorem totalPadding_eq (bs : List Block) :
    totalPadding bs = ((bs.filterMap Block.paddingSize).sum) := by
  suffices h : ∀ acc, bs.foldl
      (fun acc b => match b with | .padding size => acc + size | _ => acc) acc =
      acc + (bs.filterMap Block.paddingSize).sum by
    simpa [totalPadding] using h 0
  induction bs with
  | nil => intro acc; simp
  | cons b rest ih =>
    intro acc
    cases b <;> simp [List.filterMap_cons, Block.paddingSize, ih, Nat.add_assoc]

theorem isPadding_iff_block_type (b : Block) (h : b.isPadding = true) :
    b.block_type = 1 := by
  cases b <;> simp_all [Block.isPadding, Block.block_type]

theorem aggregate_padding_blocks (t : FlacTag) :
    (t.aggregate_padding).blocks =
      t.blocks.filter (fun b => b.block_type != 1) ++
        [Block.padding (totalPadding t.blocks)] := by
  rfl

theorem totalPadding_append (bs cs : List Block) :
    totalPadding (bs ++ cs) = totalPadding bs + totalPadding cs := by
  simp [totalPadding_eq, List.filterMap_append]

theorem totalPadding_filter_ne_one (bs : List Block) :
    totalPadding (bs.filter (fun b => b.block_type != 1)) = 0 := by
  induction bs with
  | nil => rfl
  | cons b rest ih =>
    cases b
    case unknown code data =>
      by_cases h : code = 1 <;>
        simp_all [totalPadding_eq, List.filter_cons, Block.block_type,
          Block.paddingSize, List.filterMap_cons]
    all_goals
      simp_all [totalPadding_eq, List.filter_cons, Block.block_type,
        Block.paddingSize, List.filterMap_cons]

/-- C1 (counterexample): the claim promises that after `aggregate_padding()`
"the non-padding blocks keep their types and their relative order".  But the
removal step drops every block whose *type code* equals the Padding code 1,
so an `unknown` block tagged with code 1 — which is not a padding block — is
deleted by the call: on `tagC1` the non-padding block `unknown 1 []` is a
member of the tag before the call and absent afterwards. -/
theorem claim_c1_counterexample :
    (Block.unknown 1 []).isPadding = false ∧
      Block.unknown 1 [] ∈ tagC1.blocks ∧
      Block.unknown 1 [] ∉ (tagC1.aggregate_padding).blocks := by
  decide

/-- C1 (amended): after `aggregate_padding()` the tag contains exactly one
padding block whose size is the sum of the padding sizes `s1..sN` (so the
total padding size is conserved, also for N = 0 or 1), and the non-padding
blocks — other than unknown blocks manually tagged with the Padding type
code 1, which the call removes — keep their types and their relative order. -/
theorem claim_c1_amended (t : FlacTag) :
    (t.aggregate_padding).blocks.filter Block.isPadding =
        [Block.padding ((t.blocks.filterMap Block.paddingSize).sum)] ∧
      totalPadding (t.aggregate_padding).blocks = totalPadding t.blocks ∧
      (t.aggregate_padding).blocks.filter (fun b => !b.isPadding) =
        t.blocks.filter (fun b => !b.isPadding && b.block_type != 1) := by
  refine ⟨?_, ?_, ?_⟩
  · rw [aggregate_padding_blocks, List.filter_append, List.filter_filter]
    have h1 : ∀ b ∈ t.blocks,
        (Block.isPadding b && b.block_type != 1) = false := by
      intro b _
      cases b <;> simp [Block.isPadding, Block.block_type]
    rw [List.filter_congr h1]
    simp [Block.isPadding, totalPadding_eq]
  · rw [aggregate_padding_blocks, totalPadding_append]
    have h2 := totalPadding_filter_ne_one t.blocks
    simp [h2, totalPadding_eq, List.filterMap_cons, Block.paddingSize]
  · rw [aggregate_padding_blocks, List.filter_append, List.filter_filter]
    simp [Block.isPadding]

theorem vorbisOf_append (bs cs : List Block) :
    vorbisOf (bs ++ cs) = vorbisOf bs ++ vorbisOf cs := by
  simp [vorbisOf]

theorem vorbisOf_mapVorbis (f : VorbisComment → VorbisComment)
    (bs : List Block) : vorbisOf (mapVorbis f bs) = (vorbisOf bs).map f := by
  induction bs with
  | nil => rfl
  | cons b rest ih => cases b <;> simp_all [vorbisOf, mapVorbis]

theorem vorbisOf_eq_nil_iff (bs : List Block) :
    vorbisOf bs = [] ↔ ∀ b ∈ bs, b.isVorbisComment = false := by
  induction bs with
  | nil => simp [vorbisOf]
  | cons b rest ih => cases b <;> simp_all [vorbisOf, Block.isVorbisComment]

theorem has_vorbis_iff (t : FlacTag) :
    t.has_vorbis = true ↔ t.vorbis_comments ≠ [] := by
  rw [FlacTag.has_vorbis, FlacTag.vorbis_comments]
  rw [ne_eq, vorbisOf_eq_nil_iff]
  simp [List.any_eq_true]

theorem vorbis_ensure_of_has (t : FlacTag) (h : t.has_vorbis = true) :
    t.vorbis_ensure = t := by
  simp [FlacTag.vorbis_ensure, h]

theorem vorbis_ensure_of_not_has (t : FlacTag) (h : t.has_vorbis = false) :
    t.vorbis_ensure = t.add_block (.vorbisComment VorbisComment.new) := by
  simp [FlacTag.vorbis_ensure, h]

theorem vorbis_ensure_comments_ne_nil (t : FlacTag) :
    (t.vorbis_ensure).vorbis_comments ≠ [] := by
  cases h : t.has_vorbis
  · rw [vorbis_ensure_of_not_has t h]
    simp [FlacTag.vorbis_comments, FlacTag.add_block, vorbisOf_append, vorbisOf]
  · rw [vorbis_ensure_of_has t h]
    exact (has_vorbis_iff t).mp h

theorem commentsGet_remove_self (m : List (String × List String)) (k : String) :
    commentsGet (commentsRemove m k) k = none := by
  induction m with
  | nil => rfl
  | cons p rest ih =>
    obtain ⟨k', vs⟩ := p
    by_cases h : k' = k <;> simp_all [commentsRemove, commentsGet, List.filter_cons]

theorem commentsGet_remove_other (m : List (String × List String))
    (k k2 : String) (h : k2 ≠ k) :
    commentsGet (commentsRemove m k) k2 = commentsGet m k2 := by
  induction m with
  | nil => rfl
  | cons p rest ih =>
    obtain ⟨k', vs⟩ := p
    by_cases h1 : k' = k
    · subst h1
      simp_all [commentsRemove, commentsGet, List.filter_cons, Ne.symm h]
    · by_cases h2 : k' = k2 <;>
        simp_all [commentsRemove, commentsGet, List.filter_cons]

theorem commentsGet_update_self (m : List (String × List String)) (k : String)
    (f : List String → List String) :
    commentsGet (commentsUpdate m k f) k = (commentsGet m k).map f := by
  induction m with
  | nil => rfl
  | cons p rest ih =>
    obtain ⟨k', vs⟩ := p
    by_cases h : k' = k <;> simp_all [commentsUpdate, commentsGet]

theorem commentsGet_update_other (m : List (String × List String))
    (k k2 : String) (f : List String → List String) (h : k2 ≠ k) :
    commentsGet (commentsUpdate m k f) k2 = commentsGet m k2 := by
  induction m with
  | nil => rfl
  | cons p rest ih =>
    obtain ⟨k', vs⟩ := p
    by_cases h1 : k' = k
    · subst h1
      simp_all [commentsUpdate, commentsGet, Ne.symm h]
    · by_cases h2 : k' = k2 <;> simp_all [commentsUpdate, commentsGet]

theorem foldl_collectStep_acc (k : String) (vcs : List VorbisComment) :
    ∀ acc, vcs.foldl (collectStep k) acc = acc ++ vcs.foldl (collectStep k) [] := by
  induction vcs with
  | nil => intro acc; simp
  | cons v rest ih =>
    intro acc
    rw [List.foldl_cons, List.foldl_cons, ih (collectStep k acc v),
      ih (collectStep k [] v)]
    cases h : commentsGet v.comments k <;> simp [collectStep, h]

theorem vorbis_values_of_all_none (t : FlacTag) (k : String)
    (h : ∀ v ∈ t.vorbis_comments, commentsGet v.comments k = none) :
    t.vorbis_values k = [] := by
  rw [FlacTag.vorbis_values]
  have main : ∀ (vcs : List VorbisComment),
      (∀ v ∈ vcs, commentsGet v.comments k = none) →
      vcs.foldl (collectStep k) [] = [] := by
    intro vcs
    induction vcs with
    | nil => intro _; rfl
    | cons v rest ih =>
      intro hall
      rw [List.foldl_cons]
      have h1 : collectStep k [] v = [] := by
        simp [collectStep, hall v (by simp)]
      rw [h1]
      exact ih fun u hu => hall u (by simp [hu])
  exact main _ h

theorem get_vorbis_key_of_values_ne (t : FlacTag) (k : String)
    (h : t.vorbis_values k ≠ []) :
    t.get_vorbis_key k = some (String.intercalate ", " (t.vorbis_values k)) := by
  rw [FlacTag.get_vorbis_key]
  simp only [List.length_pos, if_pos (by simpa using h)]

theorem get_vorbis_key_of_values_nil (t : FlacTag) (k : String)
    (h : t.vorbis_values k = []) : t.get_vorbis_key k = none := by
  simp [FlacTag.get_vorbis_key, h]

theorem remove_vorbis_key_comments (t : FlacTag) (k : String) :
    (t.remove_vorbis_key k).vorbis_comments =
      ((t.vorbis_ensure).vorbis_comments).map
        (fun v => { v with comments := commentsRemove v.comments k }) := by
  rw [FlacTag.remove_vorbis_key]
  exact vorbisOf_mapVorbis _ _

theorem remove_vorbis_key_value_comments (t : FlacTag) (k val : String) :
    (t.remove_vorbis_key_value k val).vorbis_comments =
      ((t.vorbis_ensure).vorbis_comments).map
        (fun v =>
          { v with
            comments := commentsUpdate v.comments k
              (fun list => list.filter (fun s => s != val)) }) := by
  rw [FlacTag.remove_vorbis_key_value]
  exact vorbisOf_mapVorbis _ _

theorem get_vorbis_key_remove_self (t : FlacTag) (k : String) :
    (t.remove_vorbis_key k).get_vorbis_key k = none := by
  apply get_vorbis_key_of_values_nil
  apply vorbis_values_of_all_none
  intro v hv
  rw [remove_vorbis_key_comments] at hv
  obtain ⟨w, _, rfl⟩ := List.mem_map.mp hv
  exact commentsGet_remove_self w.comments k

theorem vorbis_values_map_congr (t1 t2 : FlacTag) (k : String)
    (h : (t1.vorbis_comments).map (fun v => commentsGet v.comments k) =
      (t2.vorbis_comments).map (fun v => commentsGet v.comments k)) :
    t1.vorbis_values k = t2.vorbis_values k := by
  rw [FlacTag.vorbis_values, FlacTag.vorbis_values]
  have main : ∀ (l1 l2 : List VorbisComment),
      l1.map (fun v => commentsGet v.comments k) =
        l2.map (fun v => commentsGet v.comments k) →
      l1.foldl (collectStep k) [] = l2.foldl (collectStep k) [] := by
    intro l1
    induction l1 with
    | nil =>
      intro l2 h2
      cases l2 with
      | nil => rfl
      | cons w r => simp at h2
    | cons v r1 ih =>
      intro l2 h2
      cases l2 with
      | nil => simp at h2
      | cons w r2 =>
        simp only [List.map_cons, List.cons.injEq] at h2
        rw [List.foldl_cons, List.foldl_cons,
          foldl_collectStep_acc k r1, foldl_collectStep_acc k r2,
          ih r2 h2.2]
        have : collectStep k [] v = collectStep k [] w := by
          rw [collectStep, collectStep, h2.1]
        rw [this]
  exact main _ _ h

theorem vorbis_ensure_values (t : FlacTag) (k : String) :
    (t.vorbis_ensure).vorbis_values k = t.vorbis_values k := by
  cases h : t.has_vorbis
  · rw [FlacTag.vorbis_values, FlacTag.vorbis_values,
      vorbis_ensure_of_not_has t h]
    have h1 : (t.add_block (.vorbisComment VorbisComment.new)).vorbis_comments =
        t.vorbis_comments ++ [VorbisComment.new] := by
      simp [FlacTag.vorbis_comments, FlacTag.add_block, vorbisOf_append, vorbisOf]
    rw [h1, List.foldl_append]
    simp [collectStep, commentsGet, VorbisComment.new]
  · rw [vorbis_ensure_of_has t h]

theorem get_vorbis_key_ensure (t : FlacTag) (k : String) :
    (t.vorbis_ensure).get_vorbis_key k = t.get_vorbis_key k := by
  rw [FlacTag.get_vorbis_key, FlacTag.get_vorbis_key, vorbis_ensure_values]

theorem get_vorbis_key_remove_other (t : FlacTag) (k k2 : String)
    (h : k2 ≠ k) :
    (t.remove_vorbis_key k).get_vorbis_key k2 = t.get_vorbis_key k2 := by
  have hv : (t.remove_vorbis_key k).vorbis_values k2 =
      (t.vorbis_ensure).vorbis_values k2 := by
    apply vorbis_values_map_congr
    rw [remove_vorbis_key_comments, List.map_map]
    apply List.map_congr_left
    intro v _
    exact commentsGet_remove_other v.comments k k2 h
  rw [FlacTag.get_vorbis_key, FlacTag.get_vorbis_key, hv, vorbis_ensure_values]

theorem remove_vorbis_key_has (t : FlacTag) (k : String) :
    (t.remove_vorbis_key k).has_vorbis = true := by
  rw [has_vorbis_iff, remove_vorbis_key_comments]
  intro hmap
  exact vorbis_ensure_comments_ne_nil t (List.map_eq_nil_iff.mp hmap)

/-- C3: `get(key)` concatenates, across all Vorbis-comment blocks in block
order and within each block in entry order, every value stored under the
key, joined with `", "`; it is `None` when no block stores the key; and
setting `["value1","value2"]` then getting yields `"value1, value2"`. -/
theorem claim_c3 (t : FlacTag) (k : String) :
    (t.vorbis_values k ≠ [] →
      t.get_vorbis_key k = some (String.intercalate ", " (t.vorbis_values k))) ∧
    ((∀ v ∈ t.vorbis_comments, commentsGet v.comments k = none) →
      t.get_vorbis_key k = none) ∧
    (FlacTag.new.set_vorbis_key "key" ["value1", "value2"]).get_vorbis_key "key"
      = some "value1, value2" := by
  refine ⟨get_vorbis_key_of_values_ne t k, ?_, by decide⟩
  intro h
  exact get_vorbis_key_of_values_nil t k (vorbis_values_of_all_none t k h)

theorem claim_c3_witness :
    (FlacTag.new.set_vorbis_key "key" ["value1", "value2"]).vorbis_values "key"
        ≠ [] ∧
      (FlacTag.new.set_vorbis_key "key" ["value1", "value2"]).get_vorbis_key
          "key" =
        some (String.intercalate ", "
          ((FlacTag.new.set_vorbis_key "key" ["value1", "value2"]).vorbis_values
            "key")) :=
  ⟨by decide,
    (claim_c3 (FlacTag.new.set_vorbis_key "key" ["value1", "value2"]) "key").1
      (by decide)⟩

theorem updateFirstVorbis_decomp (f : VorbisComment → VorbisComment) :
    ∀ (bs : List Block), bs.any Block.isVorbisComment = true →
    ∃ l1 v l2, bs = l1 ++ Block.vorbisComment v :: l2 ∧
      (∀ b ∈ l1, b.isVorbisComment = false) ∧
      updateFirstVorbis f bs = l1 ++ Block.vorbisComment (f v) :: l2 := by
  intro bs
  induction bs with
  | nil => intro h; simp at h
  | cons b rest ih =>
    intro h
    cases b
    case vorbisComment v =>
      exact ⟨[], v, rest, rfl, by simp, rfl⟩
    all_goals {
      simp only [List.any_cons, Block.isVorbisComment, Bool.false_or] at h
      obtain ⟨l1, v, l2, h1, h2, h3⟩ := ih h
      refine ⟨_ :: l1, v, l2, by rw [h1]; rfl, ?_, ?_⟩
      · intro b hb
        rcases List.mem_cons.mp hb with hb | hb
        · rw [hb]; rfl
        · exact h2 b hb
      · simp [updateFirstVorbis, h3]
    }

theorem has_vorbis_of_two (t : FlacTag) (h : 2 ≤ t.vorbis_comments.length) :
    t.has_vorbis = true := by
  rw [has_vorbis_iff]
  intro hnil
  rw [hnil] at h
  simp at h

/-- C4: on a tag with at least two Vorbis-comment blocks, `set_vorbis_key`
replaces the value list for the key in the first comment block only: the
blocks before it (all non-comment) and every block after it — including the
other comment blocks and any occurrence of the key inside them — are
syntactically unchanged. -/
theorem claim_c4 (t : FlacTag) (k : String) (vs : List String)
    (h : 2 ≤ t.vorbis_comments.length) :
    ∃ l1 v l2,
      t.blocks = l1 ++ Block.vorbisComment v :: l2 ∧
      (∀ b ∈ l1, b.isVorbisComment = false) ∧
      (t.set_vorbis_key k vs).blocks =
        l1 ++ Block.vorbisComment
          { v with comments := commentsInsert v.comments k vs } :: l2 := by
  have hv := has_vorbis_of_two t h
  have hens : t.vorbis_ensure = t := vorbis_ensure_of_has t hv
  rw [FlacTag.has_vorbis] at hv
  obtain ⟨l1, v, l2, h1, h2, h3⟩ := updateFirstVorbis_decomp
    (fun v => { v with comments := commentsInsert v.comments k vs }) t.blocks hv
  refine ⟨l1, v, l2, h1, h2, ?_⟩
  rw [FlacTag.set_vorbis_key]
  simp only [hens]
  exact h3

theorem claim_c4_witness :
    2 ≤ tagW4.vorbis_comments.length ∧
      ∃ l1 v l2,
        tagW4.blocks = l1 ++ Block.vorbisComment v :: l2 ∧
        (∀ b ∈ l1, b.isVorbisComment = false) ∧
        (tagW4.set_vorbis_key "key" ["x"]).blocks =
          l1 ++ Block.vorbisComment
            { v with comments := commentsInsert v.comments "key" ["x"] } :: l2 :=
  ⟨by decide, claim_c4 tagW4 "key" ["x"] (by decide)⟩

/-- C5: `remove_vorbis_key` removes the key from every comment block, so a
subsequent `get` is `None`; `remove_vorbis_key_value` keeps each block's key
but retains only the values differing from the given one, leaving every
other key untouched; and the spec's example chain on a fresh tag — set
`["value1","value2"]`, remove the value `"value1"`, get — yields
`"value2"`. -/
theorem claim_c5 (t : FlacTag) (k val : String) :
    (t.remove_vorbis_key k).get_vorbis_key k = none ∧
    (∀ v ∈ (t.remove_vorbis_key k).vorbis_comments,
      commentsGet v.comments k = none) ∧
    ((t.remove_vorbis_key_value k val).vorbis_comments).map
        (fun v => commentsGet v.comments k) =
      ((t.vorbis_ensure).vorbis_comments).map
        (fun v => (commentsGet v.comments k).map
          (fun list => list.filter (fun s => s != val))) ∧
    (∀ k2, k2 ≠ k →
      ((t.remove_vorbis_key_value k val).vorbis_comments).map
          (fun v => commentsGet v.comments k2) =
        ((t.vorbis_ensure).vorbis_comments).map
          (fun v => commentsGet v.comments k2)) ∧
    ((FlacTag.new.set_vorbis_key "key" ["value1", "value2"]).remove_vorbis_key_value
        "key" "value1").get_vorbis_key "key" = some "value2" := by
  refine ⟨get_vorbis_key_remove_self t k, ?_, ?_, ?_, by decide⟩
  · intro v hv
    rw [remove_vorbis_key_comments] at hv
    obtain ⟨w, _, rfl⟩ := List.mem_map.mp hv
    exact commentsGet_remove_self w.comments k
  · rw [remove_vorbis_key_value_comments, List.map_map]
    apply List.map_congr_left
    intro v _
    exact commentsGet_update_self v.comments k _
  · intro k2 hk2
    rw [remove_vorbis_key_value_comments, List.map_map]
    apply List.map_congr_left
    intro v _
    exact commentsGet_update_other v.comments k k2 _ hk2

theorem claim_c5_witness :
    ("x" : String) ≠ "key" ∧
      ((tagW4.remove_vorbis_key_value "key" "a").vorbis_comments).map
          (fun v => commentsGet v.comments "x") =
        ((tagW4.vorbis_ensure).vorbis_comments).map
          (fun v => commentsGet v.comments "x") :=
  ⟨by decide, (claim_c5 tagW4 "key" "a").2.2.2.1 "x" (by decide)⟩

theorem mapVorbis_append (f : VorbisComment → VorbisComment)
    (bs cs : List Block) :
    mapVorbis f (bs ++ cs) = mapVorbis f bs ++ mapVorbis f cs := by
  simp [mapVorbis]

theorem mapVorbis_of_no_vorbis (f : VorbisComment → VorbisComment)
    (bs : List Block) (h : ∀ b ∈ bs, b.isVorbisComment = false) :
    mapVorbis f bs = bs := by
  rw [mapVorbis]
  have h1 : ∀ b ∈ bs,
      (match b with
        | Block.vorbisComment v => Block.vorbisComment (f v)
        | b => b) = b := by
    intro b hb
    cases b <;> first
      | rfl
      | exact absurd (h _ hb) (by simp [Block.isVorbisComment])
  rw [List.map_congr_left h1]
  simp

/-- C9: on a tag with no Vorbis-comment block, `remove_vorbis_key` and
`remove_vorbis_key_value` are not pure no-ops: through the creating
`vorbis_comments_mut` call each appends one fresh empty comment block to the
tag. -/
theorem claim_c9 (t : FlacTag) (k val : String)
    (h : t.vorbis_comments = []) :
    (t.remove_vorbis_key k).blocks =
        t.blocks ++ [Block.vorbisComment VorbisComment.new] ∧
      (t.remove_vorbis_key_value k val).blocks =
        t.blocks ++ [Block.vorbisComment VorbisComment.new] ∧
      (t.remove_vorbis_key k).blocks ≠ t.blocks := by
  have hnv : t.has_vorbis = false := by
    cases hh : t.has_vorbis
    · rfl
    · exact absurd h ((has_vorbis_iff t).mp hh)
  have hens := vorbis_ensure_of_not_has t hnv
  have hnob : ∀ b ∈ t.blocks, b.isVorbisComment = false :=
    (vorbisOf_eq_nil_iff t.blocks).mp h
  refine ⟨?_, ?_, ?_⟩
  · rw [FlacTag.remove_vorbis_key]
    simp only [hens, FlacTag.add_block, mapVorbis_append,
      mapVorbis_of_no_vorbis _ _ hnob]
    rfl
  · rw [FlacTag.remove_vorbis_key_value]
    simp only [hens, FlacTag.add_block, mapVorbis_append,
      mapVorbis_of_no_vorbis _ _ hnob]
    rfl
  · intro heq
    rw [FlacTag.remove_vorbis_key] at heq
    simp only [hens, FlacTag.add_block, mapVorbis_append,
      mapVorbis_of_no_vorbis _ _ hnob] at heq
    have := congrArg List.length heq
    simp [mapVorbis] at this

theorem claim_c9_witness :
    FlacTag.new.vorbis_comments = [] ∧
      ((FlacTag.new.remove_vorbis_key "a").blocks =
          FlacTag.new.blocks ++ [Block.vorbisComment VorbisComment.new] ∧
        (FlacTag.new.remove_vorbis_key_value "a" "b").blocks =
          FlacTag.new.blocks ++ [Block.vorbisComment VorbisComment.new] ∧
        (FlacTag.new.remove_vorbis_key "a").blocks ≠ FlacTag.new.blocks) :=
  ⟨rfl, claim_c9 FlacTag.new "a" "b" rfl⟩

/-- C10: `remove_track` removes both the `TRACKNUMBER` and the `TOTALTRACKS`
key from every comment block, after which `track()` and `total_tracks()` are
both absent; `remove_total_tracks` removes only `TOTALTRACKS` — the get of
every other key, and `track()` in particular, is unchanged. -/
theorem claim_c10 (t : FlacTag) :
    (t.remove_track).track = none ∧
    (t.remove_track).total_tracks = none ∧
    (∀ v ∈ (t.remove_track).vorbis_comments,
      commentsGet v.comments "TRACKNUMBER" = none ∧
        commentsGet v.comments "TOTALTRACKS" = none) ∧
    (t.remove_total_tracks).total_tracks = none ∧
    (∀ k, k ≠ "TOTALTRACKS" →
      (t.remove_total_tracks).get_vorbis_key k = t.get_vorbis_key k) ∧
    (t.remove_total_tracks).track = t.track := by
  refine ⟨?_, ?_, ?_, ?_, ?_, ?_⟩
  · rw [FlacTag.track, FlacTag.remove_track,
      get_vorbis_key_remove_other _ _ _ (by decide),
      get_vorbis_key_remove_self]
    rfl
  · rw [FlacTag.total_tracks, FlacTag.remove_track, get_vorbis_key_remove_self]
    rfl
  · intro v hv
    rw [FlacTag.remove_track, remove_vorbis_key_comments,
      vorbis_ensure_of_has _ (remove_vorbis_key_has t "TRACKNUMBER"),
      remove_vorbis_key_comments, List.map_map] at hv
    obtain ⟨w, _, rfl⟩ := List.mem_map.mp hv
    constructor
    · show commentsGet (commentsRemove (commentsRemove w.comments "TRACKNUMBER")
        "TOTALTRACKS") "TRACKNUMBER" = none
      rw [commentsGet_remove_other _ _ _ (by decide)]
      exact commentsGet_remove_self _ _
    · exact commentsGet_remove_self _ _
  · rw [FlacTag.total_tracks, FlacTag.remove_total_tracks,
      get_vorbis_key_remove_self]
    rfl
  · intro k hk
    rw [FlacTag.remove_total_tracks, get_vorbis_key_remove_other _ _ _ hk]
  · rw [FlacTag.track, FlacTag.track, FlacTag.remove_total_tracks,
      get_vorbis_key_remove_other _ _ _ (by decide)]

theorem claim_c10_witness :
    ("X" : String) ≠ "TOTALTRACKS" ∧
      (tagW4.remove_total_tracks).get_vorbis_key "X" =
        tagW4.get_vorbis_key "X" :=
  ⟨by decide, (claim_c10 tagW4).2.2.2.2.1 "X" (by decide)⟩

/-- C8: `save()` on a tag whose originating path is unset is a
contract-violation panic (a distinct programmer-error fault), never a silent
no-op and never a delegation to `write_to_path`. -/
theorem claim_c8 (t : FlacTag) (h : t.path = none) :
    t.save = SaveAction.panicked
        "attempted to save metadata which was not read from a file" ∧
      ∀ p, t.save ≠ SaveAction.write_to_path p := by
  constructor
  · rw [FlacTag.save, h]
  · intro p heq
    rw [FlacTag.save, h] at heq
    exact SaveAction.noConfusion heq

theorem claim_c8_witness :
    FlacTag.new.path = none ∧
      FlacTag.new.save = SaveAction.panicked
        "attempted to save metadata which was not read from a file" ∧
      FlacTag.new.save ≠ SaveAction.write_to_path "song.flac" :=
  ⟨rfl, (claim_c8 FlacTag.new rfl).1, (claim_c8 FlacTag.new rfl).2 "song.flac"⟩

theorem sort_value_cases (b : Block) :
    sort_value b = 1 ∨ sort_value b = 2 ∨ sort_value b = 3 := by
  cases b <;> simp [sort_value]

theorem sort_value_pos (b : Block) : 1 ≤ sort_value b := by
  cases b <;> simp [sort_value]

theorem sort_value_eq_two (b : Block) :
    (sort_value b == 2) = (!b.isStreamInfo && !b.isPadding) := by
  cases b <;> rfl

theorem orderedInsert_all_le (a : Block) (l : List Block)
    (h : ∀ b ∈ l, blockle a b) :
    List.orderedInsert blockle a l = a :: l := by
  cases l with
  | nil => rfl
  | cons b rest =>
    rw [List.orderedInsert, if_pos (h b (by simp))]

theorem orderedInsert_append_not (a : Block) (l1 l2 : List Block)
    (h : ∀ b ∈ l1, ¬ blockle a b) :
    List.orderedInsert blockle a (l1 ++ l2) =
      l1 ++ List.orderedInsert blockle a l2 := by
  induction l1 with
  | nil => rfl
  | cons b r ih =>
    rw [List.cons_append, List.orderedInsert, if_neg (h b (by simp)),
      ih fun c hc => h c (by simp [hc])]
    rfl

theorem insertionSort_classes (bs : List Block) :
    List.insertionSort blockle bs =
      bs.filter (fun b => sort_value b == 1) ++
        bs.filter (fun b => sort_value b == 2) ++
        bs.filter (fun b => sort_value b == 3) := by
  induction bs with
  | nil => rfl
  | cons a rest ih =>
    rw [List.insertionSort, ih]
    have mem_sv : ∀ (i : Nat) (b : Block),
        b ∈ rest.filter (fun c => sort_value c == i) → sort_value b = i := by
      intro i b hb
      have h2 := (List.mem_filter.mp hb).2
      simpa using h2
    rcases sort_value_cases a with h | h | h
    · rw [orderedInsert_all_le a _ ?hle]
      case hle =>
        intro b _
        show sort_value a ≤ sort_value b
        rw [h]
        exact sort_value_pos b
      simp [List.filter_cons, h]
    · rw [List.append_assoc, orderedInsert_append_not a _ _ ?h1,
        orderedInsert_all_le a _ ?h2]
      case h1 =>
        intro b hb
        show ¬ (sort_value a ≤ sort_value b)
        rw [h, mem_sv 1 b hb]
        omega
      case h2 =>
        intro b hb
        show sort_value a ≤ sort_value b
        rcases List.mem_append.mp hb with hb | hb
        · rw [h, mem_sv 2 b hb]
        · rw [h, mem_sv 3 b hb]
          omega
      simp [List.filter_cons, h, List.append_assoc]
    · rw [orderedInsert_append_not a _ _ ?h1, orderedInsert_all_le a _ ?h2]
      case h1 =>
        intro b hb
        show ¬ (sort_value a ≤ sort_value b)
        rcases List.mem_append.mp hb with hb | hb
        · rw [h, mem_sv 1 b hb]
          omega
        · rw [h, mem_sv 2 b hb]
          omega
      case h2 =>
        intro b hb
        show sort_value a ≤ sort_value b
        rw [h, mem_sv 3 b hb]
      simp [List.filter_cons, h]

theorem agg_filter_sv1 (t : FlacTag) :
    (t.aggregate_padding).blocks.filter (fun b => sort_value b == 1) =
      t.blocks.filter (fun b => b.isStreamInfo) := by
  rw [aggregate_padding_blocks, List.filter_append, List.filter_filter]
  have h1 : ∀ b ∈ t.blocks,
      ((sort_value b == 1) && (b.block_type != 1)) = b.isStreamInfo := by
    intro b _
    cases b <;> rfl
  rw [List.filter_congr h1]
  simp [sort_value]

theorem agg_filter_sv2 (t : FlacTag) :
    (t.aggregate_padding).blocks.filter (fun b => sort_value b == 2) =
      t.blocks.filter (fun b => (sort_value b == 2) && (b.block_type != 1)) := by
  rw [aggregate_padding_blocks, List.filter_append, List.filter_filter]
  simp [sort_value]

theorem agg_filter_sv3 (t : FlacTag) :
    (t.aggregate_padding).blocks.filter (fun b => sort_value b == 3) =
      [Block.padding (totalPadding t.blocks)] := by
  rw [aggregate_padding_blocks, List.filter_append, List.filter_filter]
  have h1 : ∀ b ∈ t.blocks,
      ((sort_value b == 3) && (b.block_type != 1)) = false := by
    intro b _
    cases b <;> rfl
  rw [List.filter_congr h1]
  simp [sort_value]

theorem write_sorted_decomp (t : FlacTag) :
    t.write_sorted =
      t.blocks.filter (fun b => b.isStreamInfo) ++
        t.blocks.filter (fun b => (sort_value b == 2) && (b.block_type != 1)) ++
        [Block.padding (totalPadding t.blocks)] := by
  rw [FlacTag.write_sorted, insertionSort_classes, agg_filter_sv1,
    agg_filter_sv2, agg_filter_sv3]

theorem mark_last_map_snd (n : Nat) :
    ∀ (i : Nat) (bs : List Block), (mark_last n i bs).map Prod.snd = bs := by
  intro i bs
  induction bs generalizing i with
  | nil => rfl
  | cons b rest ih => rw [mark_last, List.map_cons, ih (i + 1)]

theorem mark_last_getElem? (n : Nat) :
    ∀ (bs : List Block) (i j : Nat),
      (mark_last n i bs)[j]? =
        (bs[j]?).map (fun b => (decide (i + j = n - 1), b)) := by
  intro bs
  induction bs with
  | nil => intro i j; rfl
  | cons b rest ih =>
    intro i j
    cases j with
    | zero => simp [mark_last]
    | succ j' =>
      rw [mark_last, List.getElem?_cons_succ, List.getElem?_cons_succ, ih (i + 1) j']
      have : i + 1 + j' = i + (j' + 1) := by omega
      rw [this]

theorem write_sorted_length_pos (t : FlacTag) : 0 < t.write_sorted.length := by
  rw [write_sorted_decomp]
  simp

theorem write_blocks_length (t : FlacTag) :
    t.write_blocks.length = t.write_sorted.length := by
  have h := congrArg List.length (mark_last_map_snd t.write_sorted.length 0 t.write_sorted)
  simpa [FlacTag.write_blocks] using h

/-- C2: after the normalization pass of `write_to` the serialized block
sequence starts with a stream-info block whenever the tag has one, ends with
the (single, aggregated) padding block, keeps every other block in between —
in their original relative order, the sort being stable — and the last-block
flag is carried by the final block of the sorted sequence and by no other
block. -/
theorem claim_c2 (t : FlacTag) :
    ((∃ b ∈ t.blocks, b.isStreamInfo = true) →
      ∃ payload, t.write_sorted.head? = some (Block.streamInfo payload)) ∧
    (∃ si mid,
      t.write_sorted = si ++ mid ++ [Block.padding (totalPadding t.blocks)] ∧
      si = t.blocks.filter (fun b => b.isStreamInfo) ∧
      (∀ b ∈ mid, b.isStreamInfo = false ∧ b.isPadding = false) ∧
      mid.Sublist (t.blocks.filter (fun b => !b.isStreamInfo && !b.isPadding))) ∧
    (t.write_blocks.map Prod.snd = t.write_sorted) ∧
    ((t.write_blocks[t.write_blocks.length - 1]?).map Prod.fst = some true) ∧
    (∀ i, i + 1 < t.write_blocks.length →
      (t.write_blocks[i]?).map Prod.fst = some false) := by
  refine ⟨?_, ?_, mark_last_map_snd _ _ _, ?_, ?_⟩
  · rintro ⟨b, hb, hsi⟩
    have hmem : b ∈ t.blocks.filter (fun c => c.isStreamInfo) :=
      List.mem_filter.mpr ⟨hb, hsi⟩
    rw [write_sorted_decomp]
    cases hF : t.blocks.filter (fun c => c.isStreamInfo) with
    | nil => rw [hF] at hmem; simp at hmem
    | cons x xs =>
      have hx : x ∈ t.blocks.filter (fun c => c.isStreamInfo) := by
        rw [hF]; simp
      have hxsi := (List.mem_filter.mp hx).2
      cases x
      case streamInfo payload => exact ⟨payload, rfl⟩
      all_goals simp_all [Block.isStreamInfo]
  · refine ⟨_, _, write_sorted_decomp t, rfl, ?_, ?_⟩
    · intro b hb
      have h2 := (List.mem_filter.mp hb).2
      cases b <;> simp_all [sort_value, Block.isStreamInfo, Block.isPadding]
    · have h1 : ∀ b ∈ t.blocks,
          ((sort_value b == 2) && (b.block_type != 1)) =
            ((b.block_type != 1) && (!b.isStreamInfo && !b.isPadding)) := by
        intro b _
        rw [sort_value_eq_two, Bool.and_comm]
      rw [List.filter_congr h1, ← List.filter_filter]
      exact List.filter_sublist _
  · rw [write_blocks_length, FlacTag.write_blocks, mark_last_getElem?]
    have hlt : t.write_sorted.length - 1 < t.write_sorted.length := by
      have := write_sorted_length_pos t
      omega
    rw [List.getElem?_eq_getElem hlt]
    simp
  · intro i hi
    rw [write_blocks_length] at hi
    rw [FlacTag.write_blocks, mark_last_getElem?]
    have hlt : i < t.write_sorted.length := by omega
    rw [List.getElem?_eq_getElem hlt]
    have : (decide (0 + i = t.write_sorted.length - 1)) = false := by
      simp only [decide_eq_false_iff_not]
      omega
    rw [this]
    rfl

theorem claim_c2_witness :
    (∃ b ∈ tagW2.blocks, b.isStreamInfo = true) ∧
      (∃ payload, tagW2.write_sorted.head? = some (Block.streamInfo payload)) ∧
      (0 + 1 < tagW2.write_blocks.length) ∧
      ((tagW2.write_blocks[0]?).map Prod.fst = some false) :=
  ⟨by decide, (claim_c2 tagW2).1 (by decide), by decide,
    (claim_c2 tagW2).2.2.2.2 0 (by decide)⟩

theorem recover_cases (r : Reader) : r.recover = r.data ∨ r.recover = [] := by
  obtain ⟨d, pp, fs⟩ := r
  rcases fs with _ | ⟨f, fs⟩
  · left
    simp [Reader.recover, Reader.seekSet, Reader.readToEnd, Reader.popFault]
  · cases f
    · rcases fs with _ | ⟨f2, fs⟩
      · left
        simp [Reader.recover, Reader.seekSet, Reader.readToEnd, Reader.popFault]
      · cases f2
        · left
          simp [Reader.recover, Reader.seekSet, Reader.readToEnd,
            Reader.popFault]
        · right
          simp [Reader.recover, Reader.seekSet, Reader.readToEnd,
            Reader.popFault]
    · right
      simp [Reader.recover, Reader.seekSet, Reader.popFault]

theorem readExact_err_data (r r' : Reader) (n : Nat)
    (h : r.readExact n = .err r') : r'.data = r.data := by
  obtain ⟨d, pp, fs⟩ := r
  rcases fs with _ | ⟨f, fs⟩
  · simp [Reader.readExact, Reader.popFault] at h
    split at h <;> simp_all <;> subst_vars <;> rfl
  · cases f
    · simp [Reader.readExact, Reader.popFault] at h
      split at h <;> simp_all <;> subst_vars <;> rfl
    · simp [Reader.readExact, Reader.popFault] at h
      subst_vars
      rfl

theorem readExact_ok_data (r r' : Reader) (v : List Nat) (n : Nat)
    (h : r.readExact n = .ok v r') : r'.data = r.data := by
  obtain ⟨d, pp, fs⟩ := r
  rcases fs with _ | ⟨f, fs⟩
  · simp [Reader.readExact, Reader.popFault] at h
    split at h
    · injection h with h1 h2
      subst h2
      rfl
    · simp_all
  · cases f
    · simp [Reader.readExact, Reader.popFault] at h
      split at h
      · injection h with h1 h2
        subst h2
        rfl
      · simp_all
    · simp [Reader.readExact, Reader.popFault] at h

theorem seekSet_err_data (r r' : Reader) (k : Nat)
    (h : r.seekSet k = .err r') : r'.data = r.data := by
  obtain ⟨d, pp, fs⟩ := r
  rcases fs with _ | ⟨f, fs⟩
  · simp [Reader.seekSet, Reader.popFault] at h
  · cases f
    · simp [Reader.seekSet, Reader.popFault] at h
    · simp [Reader.seekSet, Reader.popFault] at h
      subst_vars
      rfl

theorem seekSet_ok_data (r r' : Reader) (k : Nat) (u : Unit)
    (h : r.seekSet k = .ok u r') : r'.data = r.data := by
  obtain ⟨d, pp, fs⟩ := r
  rcases fs with _ | ⟨f, fs⟩
  · simp [Reader.seekSet, Reader.popFault] at h
    subst_vars
    rfl
  · cases f
    · simp [Reader.seekSet, Reader.popFault] at h
      subst_vars
      rfl
    · simp [Reader.seekSet, Reader.popFault] at h

theorem seekCur_err_data (r r' : Reader) (k : Nat)
    (h : r.seekCur k = .err r') : r'.data = r.data := by
  obtain ⟨d, pp, fs⟩ := r
  rcases fs with _ | ⟨f, fs⟩
  · simp [Reader.seekCur, Reader.popFault] at h
  · cases f
    · simp [Reader.seekCur, Reader.popFault] at h
    · simp [Reader.seekCur, Reader.popFault] at h
      subst_vars
      rfl

theorem seekCur_ok_data (r r' : Reader) (k : Nat) (u : Unit)
    (h : r.seekCur k = .ok u r') : r'.data = r.data := by
  obtain ⟨d, pp, fs⟩ := r
  rcases fs with _ | ⟨f, fs⟩
  · simp [Reader.seekCur, Reader.popFault] at h
    subst_vars
    rfl
  · cases f
    · simp [Reader.seekCur, Reader.popFault] at h
      subst_vars
      rfl
    · simp [Reader.seekCur, Reader.popFault] at h

theorem readToEnd_err_data (r r' : Reader)
    (h : r.readToEnd = .err r') : r'.data = r.data := by
  obtain ⟨d, pp, fs⟩ := r
  rcases fs with _ | ⟨f, fs⟩
  · simp [Reader.readToEnd, Reader.popFault] at h
  · cases f
    · simp [Reader.readToEnd, Reader.popFault] at h
    · simp [Reader.readToEnd, Reader.popFault] at h
      subst_vars
      rfl

theorem readBeU32_err_data (r r' : Reader)
    (h : r.readBeU32 = .err r') : r'.data = r.data := by
  rw [Reader.readBeU32] at h
  cases hh : r.readExact 4 with
  | err r1 =>
    simp only [hh] at h
    cases h
    exact readExact_err_data r r' 4 hh
  | ok bs r1 =>
    simp only [hh] at h
    exact absurd h (by simp)

theorem readBeU32_ok_data (r r' : Reader) (header : Nat)
    (h : r.readBeU32 = .ok header r') : r'.data = r.data := by
  rw [Reader.readBeU32] at h
  cases hh : r.readExact 4 with
  | err r1 =>
    simp only [hh] at h
    exact absurd h (by simp)
  | ok bs r1 =>
    simp only [hh] at h
    cases h
    exact readExact_ok_data r r' bs 4 hh

theorem finishScanI_spec (r : Reader) (h : (finishScanI r).2 = true) :
    (finishScanI r).1 = r.data ∨ (finishScanI r).1 = [] := by
  rw [finishScanI] at h ⊢
  cases hh : r.readToEnd with
  | ok bs r1 =>
    rw [hh] at h
    simp at h
  | err r1 =>
    show r1.recover = r.data ∨ r1.recover = []
    exact (readToEnd_err_data r r1 hh) ▸ recover_cases r1

theorem skipBlocksI_spec :
    ∀ (fuel : Nat) (r : Reader), (skipBlocksI fuel r).2 = true →
      (skipBlocksI fuel r).1 = r.data ∨ (skipBlocksI fuel r).1 = [] := by
  intro fuel
  induction fuel with
  | zero =>
    intro r _
    simp only [skipBlocksI]
    exact recover_cases r
  | succ fuel ih =>
    intro r h
    simp only [skipBlocksI] at h ⊢
    cases hh : r.readBeU32 with
    | err r' =>
      simp only [hh] at h ⊢
      exact (readBeU32_err_data r r' hh) ▸ recover_cases r'
    | ok header r1 =>
      have hd1 := readBeU32_ok_data r r1 header hh
      simp only [hh] at h ⊢
      cases hs : r1.seekCur (header &&& 0xFFFFFF) with
      | err r2 =>
        simp only [hs] at h ⊢
        exact hd1 ▸ (seekCur_err_data r1 r2 _ hs) ▸ recover_cases r2
      | ok u r2 =>
        have hd2 := seekCur_ok_data r1 r2 _ u hs
        simp only [hs] at h ⊢
        by_cases hmore : (header >>> 24) &&& 0x80 = 0
        · rw [if_pos hmore] at h ⊢
          exact hd1 ▸ hd2 ▸ ih r2 h
        · rw [if_neg hmore] at h ⊢
          exact hd1 ▸ hd2 ▸ finishScanI_spec r2 h

/-- C6 (counterexample): the claim says that on an I/O failure mid-scan the
Boundary Scanner "returns everything from the current stream position
onward".  On `readerC6` the second I/O call — the header read performed at
position 4, right after the magic — fails, so the claim predicts the result
`data.drop 4 = [1, 2, 3]`; the `try_io!` fallback of `skip_metadata`
instead seeks back to position 0 and returns the entire 7-byte stream. -/
theorem claim_c6_counterexample :
    skip_metadata readerC6 ≠ readerC6.data.drop 4 ∧
      skip_metadata readerC6 = readerC6.data := by
  decide

/-- C6 (amended): on any I/O failure mid-scan the Boundary Scanner still
signals no error, but rather than returning everything from the current
position onward it rewinds to the start and returns the entire stream
content as trailing data — or an empty buffer when the recovery seek/read
itself also fails. -/
theorem claim_c6_amended (r : Reader) (h : (skip_metadataI r).2 = true) :
    skip_metadata r = r.data ∨ skip_metadata r = [] := by
  rw [skip_metadata]
  rw [skip_metadataI] at h ⊢
  cases hh : r.readExact 4 with
  | err r' =>
    simp only [hh] at h ⊢
    exact (readExact_err_data r r' 4 hh) ▸ recover_cases r'
  | ok ident r1 =>
    have hd1 := readExact_ok_data r r1 ident 4 hh
    simp only [hh] at h ⊢
    by_cases hid : ident = fLaC_magic
    · rw [if_pos hid] at h ⊢
      exact hd1 ▸ skipBlocksI_spec _ r1 h
    · rw [if_neg hid] at h ⊢
      cases hs : r1.seekSet 0 with
      | err r2 =>
        simp only [hs] at h ⊢
        exact hd1 ▸ (seekSet_err_data r1 r2 0 hs) ▸ recover_cases r2
      | ok u r2 =>
        have hd2 := seekSet_ok_data r1 r2 0 u hs
        simp only [hs] at h ⊢
        exact hd1 ▸ hd2 ▸ finishScanI_spec r2 h

theorem claim_c6_witness :
    (skip_metadataI readerC6).2 = true ∧
      (skip_metadata readerC6 = readerC6.data ∨ skip_metadata readerC6 = []) :=
  ⟨by decide, claim_c6_amended readerC6 (by decide)⟩

/-- C7: on a stream positioned at its start whose first four bytes are not
the ASCII magic `fLaC` (and with no transport faults), decoding fails with
the format error and produces no tag, the candidate check returns `false`,
and the Boundary Scanner returns the entire stream content — the first four
bytes included — as trailing data. -/
theorem claim_c7
    (blockRead : Reader → Except TagError (Bool × Block × Reader))
    (r : Reader) (hp : r.pos = 0) (hf : r.faults = [])
    (hlen : 4 ≤ r.data.length) (hm : r.data.take 4 ≠ fLaC_magic) :
    read_from blockRead r =
        .error (.formatError "reader does not contain flac metadata") ∧
      is_candidate r = false ∧
      skip_metadata r = r.data := by
  obtain ⟨d, pp, fs⟩ := r
  simp only at hp hf hlen hm
  subst hp
  subst hf
  have hre : Reader.readExact ⟨d, 0, []⟩ 4 =
      .ok (d.take 4) ⟨d, 4, []⟩ := by
    simp [Reader.readExact, Reader.popFault, hlen]
  refine ⟨?_, ?_, ?_⟩
  · simp only [read_from, hre]
    rw [if_neg hm]
  · simp only [is_candidate, hre, beq_eq_false_iff_ne, ne_eq]
    exact hm
  · have hss : Reader.seekSet ⟨d, 4, []⟩ 0 = .ok () ⟨d, 0, []⟩ := by
      simp [Reader.seekSet, Reader.popFault]
    have hte : Reader.readToEnd ⟨d, 0, []⟩ =
        .ok d ⟨d, d.length, []⟩ := by
      simp [Reader.readToEnd, Reader.popFault]
    simp only [skip_metadata, skip_metadataI, hre]
    rw [if_neg hm]
    simp only [hss, finishScanI, hte]

theorem claim_c7_witness :
    readerC7.pos = 0 ∧ readerC7.faults = [] ∧ 4 ≤ readerC7.data.length ∧
      readerC7.data.take 4 ≠ fLaC_magic ∧
      read_from blockReader0 readerC7 =
        .error (.formatError "reader does not contain flac metadata") ∧
      is_candidate readerC7 = false ∧
      skip_metadata readerC7 = readerC7.data := by
  have h := claim_c7 blockReader0 readerC7 rfl rfl (by decide) (by decide)
  exact ⟨rfl, rfl, by decide, by decide, h.1, h.2.1, h.2.2⟩
